import Mathlib

/-!
Verification of the filesystem primitives in `yazi-shared/src/fs/fns.rs`:
case-aware symlink path resolution with a reusable cache
(`symlink_realpath_with`), iterative directory-size accumulation
(`calculate_size`), the progress-reporting copy poller
(`copy_with_progress`), and the longest-common-path-root finder
(`max_common_root`).

Paths are modelled as lists of components; a component is either the root
component or a normal component holding its OS-string bytes (Rust operates
on `OsStr` bytes via `as_encoded_bytes`, `to_ascii_lowercase`,
`is_ascii_uppercase`).
-/

namespace Yazi

/-- OS-string bytes of one path component (Rust `OsStr` contents). -/
abbrev OsStr := List Nat

/-- Rust `u8::to_ascii_lowercase`: bytes 65..=90 get 32 added. -/
def lowerByte (b : Nat) : Nat := if 65 ≤ b ∧ b ≤ 90 then b + 32 else b

/-- Rust `u8::is_ascii_uppercase`. -/
def isUpperByte (b : Nat) : Bool := decide (65 ≤ b) && decide (b ≤ 90)

/-- Rust `OsStr::to_ascii_lowercase`, byte-wise. -/
def lowerStr (s : OsStr) : OsStr := s.map lowerByte

/-- `bytes.iter().any(|b| b.is_ascii_uppercase())` on one component. -/
def strHasUpper (s : OsStr) : Bool := s.any isUpperByte

/-- A path component: the root directory or a named component. -/
inductive Comp where
  | rootDir
  | normal (s : OsStr)
deriving DecidableEq

/-- A path: its component list (Rust `PathBuf`, already normalized). -/
abbrev FsPath := List Comp

/-- ASCII-lowercasing a component ('/' separators hold no uppercase). -/
def lowerComp : Comp → Comp
  | .rootDir => .rootDir
  | .normal s => .normal (lowerStr s)

/-- `path.as_os_str().to_ascii_lowercase()`: lowercases every byte, which
    by components is lowercasing each component. -/
def lowerPath (p : FsPath) : FsPath := p.map lowerComp

/-- Does a component contain an uppercase ASCII byte? -/
def compHasUpper : Comp → Bool
  | .rootDir => false
  | .normal s => strHasUpper s

/-- `parent.as_os_str().as_encoded_bytes().iter().any(is_ascii_uppercase)`. -/
def pathHasUpper (p : FsPath) : Bool := p.any compHasUpper

/-- Rust `Path::parent`: `None` for the empty path and the bare root,
    otherwise the path with its last component dropped. -/
def parent? (p : FsPath) : Option FsPath :=
  if p = [] ∨ p = [Comp.rootDir] then none else some p.dropLast

/-- Rust `Path::file_name`: the last component when it is a normal one. -/
def fileName? (p : FsPath) : Option OsStr :=
  match p.getLast? with
  | some (Comp.normal s) => some s
  | _ => none

/-! ### The resolution cache (`HashMap<PathBuf, PathBuf>`)

Modelled as an association list where insertion conses the new pair in
front and lookup returns the first match, which matches `HashMap`'s
insert-overwrites-lookup behaviour. -/

abbrev Cache := List (FsPath × FsPath)

/-- `HashMap::get`. -/
def cacheLookup (c : Cache) (k : FsPath) : Option FsPath :=
  match c with
  | [] => none
  | (k2, v) :: rest => if k2 = k then some v else cacheLookup rest k

/-- `HashMap::contains_key`. -/
def cacheHasKey (c : Cache) (k : FsPath) : Bool := (cacheLookup c k).isSome

/-- `HashMap::insert` (overwrite semantics via first-match lookup). -/
def cacheInsert (c : Cache) (k v : FsPath) : Cache := (k, v) :: c

/-! ### `symlink_realpath_with`

The directory listing primitive `fs::read_dir(parent)` either fails to
open, or yields a sequence of `next_entry` outcomes: each is `Ok` with the
entry's file name, or an `Err` that aborts the iteration (the `?` in
`while let Some(entry) = it.next_entry().await?`). -/

/-- Result of `fs::read_dir` on one directory. -/
abbrev DirListing := Except String (List (Except String OsStr))

/-- The filesystem as seen through `read_dir`. -/
abbrev Fs := FsPath → DirListing

/-- The scan loop body of `symlink_realpath_with`: for each entry `p =
    parent.join(name)`, if the parent has an uppercase byte or the name
    does, insert `lowercase(p) ↦ p`; an `Err` from `next_entry` propagates,
    keeping the cache as mutated so far (the Rust cache is `&mut`). -/
def scanEntries (par : FsPath) (parUp : Bool) :
    List (Except String OsStr) → Cache → Except String Unit × Cache
  | [], c => (.ok (), c)
  | .error e :: _, c => (.error e, c)
  | .ok name :: rest, c =>
    let p := par ++ [Comp.normal name]
    scanEntries par parUp rest
      (if parUp || strHasUpper name then cacheInsert c (lowerPath p) p else c)

deriving instance DecidableEq for Except

/-- Outcome of one `symlink_realpath_with` call: the returned value, the
    cache as left by the call, and how many directory listings were
    performed. -/
structure Resolved where
  res : Except String FsPath
  cache : Cache
  listed : Nat
deriving DecidableEq

/-- The final cache lookup:
    `cached.get(&lowercased).filter(|p| !p.as_os_str().is_empty())
       .map_or_else(|| path, |p| p)`. -/
def finishLookup (c : Cache) (low path : FsPath) : FsPath :=
  match cacheLookup c low with
  | some v => if v = [] then path else v
  | none => path

/-- `symlink_realpath_with` from `fns.rs`: fast path for fully-lowercase
    input, no-parent path returned unchanged, memoized scan of the parent
    guarded by `contains_key`, sentinel insertion after a successful scan,
    then the cache lookup. -/
def symlink_realpath_with (path : FsPath) (cache : Cache) (fs : Fs) : Resolved :=
  let low := lowerPath path
  if low = path then ⟨.ok path, cache, 0⟩
  else
    match parent? path with
    | none => ⟨.ok path, cache, 0⟩
    | some par =>
      if cacheHasKey cache par then
        ⟨.ok (finishLookup cache low path), cache, 0⟩
      else
        match fs par with
        | .error e => ⟨.error e, cache, 1⟩
        | .ok entries =>
          match scanEntries par (pathHasUpper par) entries cache with
          | (.error e, c2) => ⟨.error e, c2, 1⟩
          | (.ok _, c2) =>
            let c3 := cacheInsert c2 par []
            ⟨.ok (finishLookup c3 low path), c3, 1⟩

/-! ### `max_common_root` -/

/-- `p.as_ref().parent().unwrap_or(Path::new(""))` as a component list. -/
def parentOrEmpty (p : FsPath) : FsPath := (parent? p).getD []

/-- The inner loop of `max_common_root`: walk two component sequences in
    lockstep, keeping components while they agree and stopping at the
    first mismatch. -/
def commonPre : FsPath → FsPath → FsPath
  | a :: as, b :: bs => if a = b then a :: commonPre as bs else []
  | _, _ => []

/-- `max_common_root` from `fns.rs`. The `| [] => []` arm mirrors the
    `it.next().unwrap()` call site: it is unreachable because the empty
    input was already returned early. -/
def max_common_root (files : List FsPath) : FsPath :=
  if files.isEmpty then []
  else
    match files.map parentOrEmpty with
    | [] => []
    | r :: rest => rest.foldl commonPre r

/-! ### Branch equations for `symlink_realpath_with` -/

theorem resolve_lower {path : FsPath} (cache : Cache) (fs : Fs)
    (h : lowerPath path = path) :
    symlink_realpath_with path cache fs = ⟨.ok path, cache, 0⟩ := by
  simp [symlink_realpath_with, h]

theorem resolve_noparent {path : FsPath} (cache : Cache) (fs : Fs)
    (h1 : lowerPath path ≠ path) (h2 : parent? path = none) :
    symlink_realpath_with path cache fs = ⟨.ok path, cache, 0⟩ := by
  simp [symlink_realpath_with, h1, h2]

theorem resolve_cached {path par : FsPath} {cache : Cache} (fs : Fs)
    (h1 : lowerPath path ≠ path) (h2 : parent? path = some par)
    (h3 : cacheHasKey cache par = true) :
    symlink_realpath_with path cache fs
      = ⟨.ok (finishLookup cache (lowerPath path) path), cache, 0⟩ := by
  simp [symlink_realpath_with, h1, h2, h3]

theorem resolve_openfail {path par : FsPath} {cache : Cache} {fs : Fs} {e : String}
    (h1 : lowerPath path ≠ path) (h2 : parent? path = some par)
    (h3 : cacheHasKey cache par = false) (h4 : fs par = .error e) :
    symlink_realpath_with path cache fs = ⟨.error e, cache, 1⟩ := by
  simp [symlink_realpath_with, h1, h2, h3, h4]

theorem resolve_scanfail {path par : FsPath} {cache c2 : Cache} {fs : Fs}
    {entries : List (Except String OsStr)} {e : String}
    (h1 : lowerPath path ≠ path) (h2 : parent? path = some par)
    (h3 : cacheHasKey cache par = false) (h4 : fs par = .ok entries)
    (h5 : scanEntries par (pathHasUpper par) entries cache = (.error e, c2)) :
    symlink_realpath_with path cache fs = ⟨.error e, c2, 1⟩ := by
  simp [symlink_realpath_with, h1, h2, h3, h4, h5]

theorem resolve_scanok {path par : FsPath} {cache c2 : Cache} {fs : Fs}
    {entries : List (Except String OsStr)}
    (h1 : lowerPath path ≠ path) (h2 : parent? path = some par)
    (h3 : cacheHasKey cache par = false) (h4 : fs par = .ok entries)
    (h5 : scanEntries par (pathHasUpper par) entries cache = (.ok (), c2)) :
    symlink_realpath_with path cache fs
      = ⟨.ok (finishLookup (cacheInsert c2 par []) (lowerPath path) path),
          cacheInsert c2 par [], 1⟩ := by
  simp [symlink_realpath_with, h1, h2, h3, h4, h5]

/-! ### Lemmas about the cache and the scan loop -/

theorem cacheHasKey_insert {c : Cache} {k : FsPath} (k2 v : FsPath)
    (h : cacheHasKey c k = true) : cacheHasKey (cacheInsert c k2 v) k = true := by
  by_cases hk : k2 = k <;> simp [cacheInsert, cacheHasKey, cacheLookup, hk, h]
  exact h

theorem cacheHasKey_insert_elim {c : Cache} {k k2 v : FsPath}
    (h : cacheHasKey (cacheInsert c k2 v) k = true) :
    k = k2 ∨ cacheHasKey c k = true := by
  by_cases hk : k2 = k
  · exact Or.inl hk.symm
  · right
    simpa [cacheInsert, cacheHasKey, cacheLookup, hk] using h

theorem scanEntries_fst_ok (par : FsPath) (u : Bool) :
    ∀ (ns : List OsStr) (c : Cache), ∃ c2,
      scanEntries par u (ns.map Except.ok) c = (.ok (), c2) := by
  intro ns
  induction ns with
  | nil => intro c; exact ⟨c, rfl⟩
  | cons n rest ih =>
    intro c
    simpa [scanEntries] using
      ih (if u || strHasUpper n then cacheInsert c (lowerPath (par ++ [Comp.normal n]))
            (par ++ [Comp.normal n]) else c)

theorem scanEntries_mono (par : FsPath) (u : Bool) :
    ∀ (entries : List (Except String OsStr)) (c : Cache) (k : FsPath),
      cacheHasKey c k = true →
      cacheHasKey (scanEntries par u entries c).2 k = true := by
  intro entries
  induction entries with
  | nil => intro c k h; simpa [scanEntries] using h
  | cons x rest ih =>
    intro c k h
    cases x with
    | error e => simpa [scanEntries] using h
    | ok name =>
      simp only [scanEntries]
      by_cases hc : (u || strHasUpper name) = true
      · simp only [hc, if_true]
        exact ih _ k (cacheHasKey_insert _ _ h)
      · simp only [hc, if_false]
        exact ih _ k h

theorem scanEntries_keys (par : FsPath) (u : Bool) :
    ∀ (entries : List (Except String OsStr)) (c : Cache) (k : FsPath),
      cacheHasKey (scanEntries par u entries c).2 k = true →
      cacheHasKey c k = true ∨ ∃ name, k = lowerPath (par ++ [Comp.normal name]) := by
  intro entries
  induction entries with
  | nil => intro c k h; exact Or.inl (by simpa [scanEntries] using h)
  | cons x rest ih =>
    intro c k h
    cases x with
    | error e => exact Or.inl (by simpa [scanEntries] using h)
    | ok name =>
      simp only [scanEntries] at h
      by_cases hc : (u || strHasUpper name) = true
      · simp only [hc, if_true] at h
        rcases ih _ k h with h2 | h2
        · rcases cacheHasKey_insert_elim h2 with h3 | h3
          · exact Or.inr ⟨name, h3⟩
          · exact Or.inl h3
        · exact Or.inr h2
      · simp only [hc, if_false] at h
        exact ih _ k h

theorem lowerPath_concat_length (par : FsPath) (s : OsStr) :
    (lowerPath (par ++ [Comp.normal s])).length = par.length + 1 := by
  simp [lowerPath]

theorem parent?_concat_normal (p : FsPath) (s : OsStr) :
    parent? (p ++ [Comp.normal s]) = some p := by
  have hnr : p ++ [Comp.normal s] ≠ [Comp.rootDir] := by
    intro h
    have h2 := congrArg List.getLast? h
    simp [List.getLast?_concat] at h2
  simp [parent?, hnr, List.dropLast_concat]

theorem lowerByte_fix (b : Nat) : lowerByte b = b ↔ isUpperByte b = false := by
  by_cases h : 65 ≤ b ∧ b ≤ 90
  · have h2 : isUpperByte b = true := by
      simp only [isUpperByte, Bool.and_eq_true, decide_eq_true_eq]
      exact h
    simp only [lowerByte, if_pos h, h2]
    constructor
    · intro h3; exact absurd h3 (by omega)
    · intro h3; cases h3
  · have h2 : isUpperByte b = false := by
      simp only [isUpperByte, Bool.and_eq_false_iff, decide_eq_false_iff_not]
      omega
    simp [lowerByte, if_neg h, h2]

theorem lowerStr_fix (s : OsStr) : lowerStr s = s ↔ strHasUpper s = false := by
  induction s with
  | nil => simp [lowerStr, strHasUpper]
  | cons b bs ih =>
    simp [lowerStr, strHasUpper, Bool.or_eq_false_iff] at *
    constructor
    · intro ⟨h1, h2⟩; exact ⟨(lowerByte_fix b).mp h1, ih.mp h2⟩
    · intro ⟨h1, h2⟩; exact ⟨(lowerByte_fix b).mpr h1, ih.mpr h2⟩

theorem lowerComp_fix (c : Comp) : lowerComp c = c ↔ compHasUpper c = false := by
  cases c with
  | rootDir => simp [lowerComp, compHasUpper]
  | normal s => simpa [lowerComp, compHasUpper] using lowerStr_fix s

theorem lowerPath_fix (p : FsPath) : lowerPath p = p ↔ pathHasUpper p = false := by
  induction p with
  | nil => simp [lowerPath, pathHasUpper]
  | cons c cs ih =>
    simp [lowerPath, pathHasUpper, Bool.or_eq_false_iff] at *
    constructor
    · intro ⟨h1, h2⟩; exact ⟨(lowerComp_fix c).mp h1, ih.mp h2⟩
    · intro ⟨h1, h2⟩; exact ⟨(lowerComp_fix c).mpr h1, ih.mpr h2⟩

/-- Lookup in a scanned cache is unchanged at keys matching none of the
    scanned entries. -/
theorem scan_lookup_of_notmem (par : FsPath) (u : Bool) :
    ∀ (ns : List OsStr) (c : Cache) (k : FsPath),
      (∀ n ∈ ns, lowerPath (par ++ [Comp.normal n]) ≠ k) →
      cacheLookup (scanEntries par u (ns.map Except.ok) c).2 k = cacheLookup c k := by
  intro ns
  induction ns with
  | nil => intro c k _; simp [scanEntries]
  | cons n rest ih =>
    intro c k hk
    simp only [List.map_cons, scanEntries]
    by_cases hc : (u || strHasUpper n) = true
    · simp only [hc, if_true]
      rw [ih _ k (fun m hm => hk m (by simp [hm]))]
      have hne : lowerPath (par ++ [Comp.normal n]) ≠ k := hk n (by simp)
      simp [cacheInsert, cacheLookup, hne]
    · simp only [hc, if_false]
      exact ih _ k (fun m hm => hk m (by simp [hm]))

/-- After a successful scan of a parent whose listing holds `name`, no two
    of whose names collide after lowercasing, the lookup of the lowercased
    child path yields the true-cased child path — the last write wins, as
    with `HashMap::insert`. -/
theorem scan_lookup_found (par : FsPath) (u : Bool) (name : OsStr) :
    ∀ (ns : List OsStr) (c : Cache),
      name ∈ ns →
      (∀ n1 ∈ ns, ∀ n2 ∈ ns, lowerStr n1 = lowerStr n2 → n1 = n2) →
      (u || strHasUpper name) = true →
      cacheLookup (scanEntries par u (ns.map Except.ok) c).2
          (lowerPath (par ++ [Comp.normal name]))
        = some (par ++ [Comp.normal name]) := by
  intro ns
  induction ns with
  | nil => intro c h; simp at h
  | cons n rest ih =>
    intro c hmem hcoll hup
    simp only [List.map_cons, scanEntries]
    by_cases hr : name ∈ rest
    · have hcoll2 : ∀ n1 ∈ rest, ∀ n2 ∈ rest, lowerStr n1 = lowerStr n2 → n1 = n2 :=
        fun n1 h1 n2 h2 => hcoll n1 (by simp [h1]) n2 (by simp [h2])
      by_cases hc : (u || strHasUpper n) = true
      · simpa [hc] using ih (cacheInsert c (lowerPath (par ++ [Comp.normal n]))
          (par ++ [Comp.normal n])) hr hcoll2 hup
      · simpa [hc] using ih c hr hcoll2 hup
    · have hn : n = name := by
        rcases List.mem_cons.mp hmem with h | h
        · exact h.symm
        · exact absurd h hr
      subst hn
      simp only [hup, if_true]
      rw [scan_lookup_of_notmem par u rest _ _ ?_]
      · simp [cacheInsert, cacheLookup]
      · intro m hm heq
        have hlow : lowerStr m = lowerStr n := by
          have h2 : lowerPath par ++ [Comp.normal (lowerStr m)]
              = lowerPath par ++ [Comp.normal (lowerStr n)] := by
            simpa [lowerPath, lowerComp] using heq
          have h3 := List.append_cancel_left h2
          simpa using h3
        have := hcoll m (by simp [hm]) n (by simp) hlow
        exact hr (this ▸ hm)

/-! ### Lemmas about `commonPre` (longest common prefix of components) -/

theorem commonPre_pre_left (a : FsPath) : ∀ b, commonPre a b <+: a := by
  induction a with
  | nil => intro b; cases b <;> simp [commonPre]
  | cons x as ih =>
    intro b
    cases b with
    | nil => simp [commonPre]
    | cons y bs =>
      by_cases h : x = y
      · subst h
        simpa [commonPre, List.cons_prefix_cons] using ih bs
      · simp [commonPre, h]

theorem commonPre_pre_right (a : FsPath) : ∀ b, commonPre a b <+: b := by
  induction a with
  | nil => intro b; cases b <;> simp [commonPre]
  | cons x as ih =>
    intro b
    cases b with
    | nil => simp [commonPre]
    | cons y bs =>
      by_cases h : x = y
      · subst h
        simpa [commonPre, List.cons_prefix_cons] using ih bs
      · simp [commonPre, h]

theorem pre_commonPre : ∀ (q a b : FsPath), q <+: a → q <+: b → q <+: commonPre a b := by
  intro q
  induction q with
  | nil => intro a b _ _; exact List.nil_prefix
  | cons x qs ih =>
    intro a b ha hb
    cases a with
    | nil => simp at ha
    | cons y as =>
      cases b with
      | nil => simp at hb
      | cons z bs =>
        obtain ⟨rfl, hqa⟩ := List.cons_prefix_cons.mp ha
        obtain ⟨rfl, hqb⟩ := List.cons_prefix_cons.mp hb
        simpa [commonPre, List.cons_prefix_cons] using ih as bs hqa hqb

theorem foldl_commonPre_pre_init (rest : List FsPath) :
    ∀ r, rest.foldl commonPre r <+: r := by
  induction rest with
  | nil => intro r; exact List.prefix_rfl
  | cons p ps ih =>
    intro r
    exact (ih (commonPre r p)).trans (commonPre_pre_left r p)

theorem foldl_commonPre_pre_mem (rest : List FsPath) :
    ∀ r p, p ∈ rest → rest.foldl commonPre r <+: p := by
  induction rest with
  | nil => intro r p hp; simp at hp
  | cons q ps ih =>
    intro r p hp
    rcases List.mem_cons.mp hp with h | h
    · subst h
      exact (foldl_commonPre_pre_init ps (commonPre r p)).trans (commonPre_pre_right r p)
    · exact ih (commonPre r q) p h

theorem pre_foldl_commonPre (rest : List FsPath) :
    ∀ r q, q <+: r → (∀ p ∈ rest, q <+: p) → q <+: rest.foldl commonPre r := by
  induction rest with
  | nil => intro r q h _; simpa using h
  | cons p ps ih =>
    intro r q hr hall
    exact ih (commonPre r p) q (pre_commonPre q r p hr (hall p (by simp)))
      (fun x hx => hall x (by simp [hx]))

/-! ### Concrete path components used in the examples
(byte values spell the names from the spec's examples). -/

def compD : Comp := .normal [100]           -- "d"
def compDir : Comp := .normal [68, 105, 114]  -- "Dir"
def strFoo : OsStr := [70, 111, 111]        -- "Foo"
def strfoo : OsStr := [102, 111, 111]       -- "foo"
def strbar : OsStr := [98, 97, 114]         -- "bar"
def strBAZTXT : OsStr := [66, 65, 90, 46, 84, 88, 84]  -- "BAZ.TXT"
def strbaztxt : OsStr := [98, 97, 122, 46, 116, 120, 116]  -- "baz.txt"
def strBaz : OsStr := [66, 97, 122]         -- "Baz"
def strFOO : OsStr := [70, 79, 79]          -- "FOO"
def compA : Comp := .normal [97]            -- "a"
def compB : Comp := .normal [98]            -- "b"
def compC : Comp := .normal [99]            -- "c"
def compDd : Comp := .normal [100]          -- "d"
def compAA : Comp := .normal [97, 97]       -- "aa"
def compBB : Comp := .normal [98, 98]       -- "bb"
def compCC : Comp := .normal [99, 99]       -- "cc"
def compDD : Comp := .normal [100, 100]     -- "dd"
def compEE : Comp := .normal [101, 101]     -- "ee"
def compFF : Comp := .normal [102, 102]     -- "ff"

/-- A directory `d` containing entries `Foo`, `bar`, `BAZ.TXT`. -/
def fsD : Fs := fun p =>
  if p = [compD] then .ok [.ok strFoo, .ok strbar, .ok strBAZTXT] else .error "open"

/-- A directory `Dir` (uppercase in the parent) containing entries `Foo`,
    `bar`, `BAZ.TXT`. -/
def fsDir : Fs := fun p =>
  if p = [compDir] then .ok [.ok strFoo, .ok strbar, .ok strBAZTXT] else .error "open"

/-- A directory `d` whose listing yields entry `A` and then fails with
    `boom` on the next `next_entry` call. -/
def fsBoom : Fs := fun p =>
  if p = [compD] then .ok [.ok [65], .error "boom"] else .error "open"

/-- A directory `d` containing two entries, `FOO` and `Foo`, whose
    ASCII-lowercased names collide (possible on a case-sensitive
    filesystem). -/
def fsColl : Fs := fun p =>
  if p = [compD] then .ok [.ok strFOO, .ok strFoo] else .error "open"

/-- A filesystem on which every directory listing fails. -/
def fsNone : Fs := fun _ => .error "open"

/-- The cache left behind by resolving `d/Baz` against `fsD` from an empty
    cache: it holds the sentinel for `d` plus true-cased entries for
    `d/Foo` and `d/BAZ.TXT`. -/
def cacheAfterScanD : Cache := (symlink_realpath_with [compD, .normal strBaz] [] fsD).cache

/-- C6: `max_common_root` returns the longest component-wise common prefix
    of every input path's parent directory, and the empty path for the
    empty input; the four concrete examples of the spec hold. -/
theorem claim_C6_max_common_root :
    max_common_root [] = []
    ∧ max_common_root [[Comp.rootDir, compA]] = [Comp.rootDir]
    ∧ max_common_root [[Comp.rootDir, compA, compB, compC],
        [Comp.rootDir, compA, compB, compDd]] = [Comp.rootDir, compA, compB]
    ∧ max_common_root [[Comp.rootDir, compAA, compBB, compCC],
        [Comp.rootDir, compAA, compBB, compCC, compDD, compEE],
        [Comp.rootDir, compAA, compBB, compCC, compFF]] = [Comp.rootDir, compAA, compBB]
    ∧ ∀ files : List FsPath, files ≠ [] →
        (∀ p ∈ files, max_common_root files <+: parentOrEmpty p)
        ∧ ∀ q : FsPath, (∀ p ∈ files, q <+: parentOrEmpty p) →
            q <+: max_common_root files := by
  refine ⟨by decide, by decide, by decide, by decide, ?_⟩
  intro files hne
  cases files with
  | nil => exact absurd rfl hne
  | cons f rest =>
    have hunf : max_common_root (f :: rest)
        = (rest.map parentOrEmpty).foldl commonPre (parentOrEmpty f) := by
      simp [max_common_root]
    constructor
    · intro p hp
      rcases List.mem_cons.mp hp with h | h
      · subst h
        rw [hunf]
        exact foldl_commonPre_pre_init _ _
      · rw [hunf]
        exact foldl_commonPre_pre_mem _ _ _ (List.mem_map_of_mem parentOrEmpty h)
    · intro q hq
      rw [hunf]
      refine pre_foldl_commonPre _ _ _ (hq f (by simp)) ?_
      intro x hx
      obtain ⟨p, hp, rfl⟩ := List.mem_map.mp hx
      exact hq p (by simp [hp])

/-- Witness for C6 at the concrete input `["/a"]`: the result `"/"` is a
    prefix of the one parent, and any common prefix (here `"/"` itself) is
    a prefix of the result. -/
theorem claim_C6_max_common_root_witness :
    (∀ p ∈ [[Comp.rootDir, compA]], max_common_root [[Comp.rootDir, compA]] <+: parentOrEmpty p)
    ∧ [Comp.rootDir] <+: max_common_root [[Comp.rootDir, compA]] := by
  have h := claim_C6_max_common_root.2.2.2.2 [[Comp.rootDir, compA]] (by decide)
  exact ⟨h.1, h.2 [Comp.rootDir] (by decide)⟩

/-- C5: a fully-lowercase path is returned unchanged by
    `symlink_realpath_with`, with no directory listing and the cache left
    exactly as it was. -/
theorem claim_C5_lowercase_fast_path (path : FsPath) (cache : Cache) (fs : Fs)
    (h : lowerPath path = path) :
    symlink_realpath_with path cache fs = ⟨.ok path, cache, 0⟩ := by
  simp [symlink_realpath_with, h]

/-- Witness for C5: the fully-lowercase path `d/foo` resolves to itself
    with zero listings and an untouched cache, even on a filesystem where
    every listing would fail. -/
theorem claim_C5_lowercase_fast_path_witness :
    symlink_realpath_with [compD, .normal strfoo] [] fsNone
      = ⟨.ok [compD, .normal strfoo], [], 0⟩ :=
  claim_C5_lowercase_fast_path [compD, .normal strfoo] [] fsNone (by decide)

/-- Counterexample to C2: on a parent whose listing yields one uppercase
    entry `A` and then fails, the call returns the error, but the cache is
    NOT left as it was: the file entry for `d/a` committed before the
    failure remains (the Rust cache is mutated in place through `&mut`). -/
theorem claim_C2_counterexample :
    (symlink_realpath_with [compD, .normal [88]] [] fsBoom).res = .error "boom"
    ∧ (symlink_realpath_with [compD, .normal [88]] [] fsBoom).cache ≠ ([] : Cache)
    ∧ cacheHasKey (symlink_realpath_with [compD, .normal [88]] [] fsBoom).cache
        [compD, .normal [97]] = true := by decide

/-- Counterexample to C3: after `d` has been scanned (sentinel present)
    and the cache maps `d/foo` to the non-empty true-cased `d/Foo`,
    resolving the fully-lowercase input `d/foo` returns the input `d/foo`
    unchanged — the fast path short-circuits before the cache lookup — and
    not the cached `d/Foo` that the claim requires. -/
theorem claim_C3_counterexample :
    cacheHasKey cacheAfterScanD [compD] = true
    ∧ cacheLookup cacheAfterScanD [compD, .normal strfoo] = some [compD, .normal strFoo]
    ∧ ([compD, .normal strFoo] : FsPath) ≠ []
    ∧ (symlink_realpath_with [compD, .normal strfoo] cacheAfterScanD fsD).res
        = .ok [compD, .normal strfoo]
    ∧ ([compD, .normal strfoo] : FsPath) ≠ [compD, .normal strFoo] := by decide

/-- Counterexample to C8: in a directory holding both `FOO` and `Foo`,
    resolving the already-correctly-cased input `d/FOO` returns `d/Foo`
    (the later colliding entry overwrote the cache slot), not the input. -/
theorem claim_C8_counterexample :
    fsColl [compD] = .ok [.ok strFOO, .ok strFoo]
    ∧ (symlink_realpath_with [compD, .normal strFOO] [] fsColl).res
        = .ok [compD, .normal strFoo]
    ∧ (Comp.normal strFoo) ≠ (Comp.normal strFOO) := by decide

/-- The cache left behind by resolving `Dir/foo` against `fsDir` from an
    empty cache (scan of `Dir` complete, sentinel present). -/
def cacheDirScanned : Cache := (symlink_realpath_with [compDir, .normal strfoo] [] fsDir).cache

/-! ### Per-branch facts used by C2 and C4 -/

theorem resolve_listed_zero_of_cached {path par : FsPath} {cache : Cache} (fs : Fs)
    (hp : parent? path = some par) (hkey : cacheHasKey cache par = true) :
    (symlink_realpath_with path cache fs).listed = 0 := by
  by_cases h1 : lowerPath path = path
  · rw [resolve_lower cache fs h1]
  · rw [resolve_cached fs h1 hp hkey]

theorem resolve_cache_mono (path : FsPath) (cache : Cache) (fs : Fs) (k : FsPath)
    (hk : cacheHasKey cache k = true) :
    cacheHasKey (symlink_realpath_with path cache fs).cache k = true := by
  by_cases h1 : lowerPath path = path
  · rw [resolve_lower cache fs h1]; exact hk
  · cases h2 : parent? path with
    | none => rw [resolve_noparent cache fs h1 h2]; exact hk
    | some par =>
      by_cases h3 : cacheHasKey cache par = true
      · rw [resolve_cached fs h1 h2 h3]; exact hk
      · have h3f : cacheHasKey cache par = false := by simpa using h3
        cases h4 : fs par with
        | error e => rw [resolve_openfail h1 h2 h3f h4]; exact hk
        | ok entries =>
          have hmono := scanEntries_mono par (pathHasUpper par) entries cache k hk
          rcases h5 : scanEntries par (pathHasUpper par) entries cache with ⟨r, c2⟩
          rw [h5] at hmono
          cases r with
          | error e =>
            rw [resolve_scanfail h1 h2 h3f h4 h5]
            exact hmono
          | ok u =>
            cases u
            rw [resolve_scanok h1 h2 h3f h4 h5]
            exact cacheHasKey_insert par [] hmono

theorem resolve_sentinel_of_scan {path par : FsPath} {cache : Cache} {fs : Fs}
    (hp : parent? path = some par)
    (hlist : (symlink_realpath_with path cache fs).listed = 1)
    (hok : ∃ p2, (symlink_realpath_with path cache fs).res = Except.ok p2) :
    cacheHasKey (symlink_realpath_with path cache fs).cache par = true := by
  by_cases h1 : lowerPath path = path
  · rw [resolve_lower cache fs h1] at hlist; simp at hlist
  · by_cases h3 : cacheHasKey cache par = true
    · rw [resolve_cached fs h1 hp h3] at hlist; simp at hlist
    · have h3f : cacheHasKey cache par = false := by simpa using h3
      cases h4 : fs par with
      | error e =>
        obtain ⟨p2, hres⟩ := hok
        rw [resolve_openfail h1 hp h3f h4] at hres
        simp at hres
      | ok entries =>
        rcases h5 : scanEntries par (pathHasUpper par) entries cache with ⟨r, c2⟩
        cases r with
        | error e =>
          obtain ⟨p2, hres⟩ := hok
          rw [resolve_scanfail h1 hp h3f h4 h5] at hres
          simp at hres
        | ok u =>
          cases u
          rw [resolve_scanok h1 hp h3f h4 h5]
          simp [cacheInsert, cacheHasKey, cacheLookup]

/-- C2 (amended): when `symlink_realpath_with` returns an I/O error, the
    path had an unscanned parent, the error propagates, and no sentinel
    entry for that parent is committed — so a later call will rescan — and
    the cache only ever grows; but file entries inserted before the
    failure point are NOT rolled back (see the counterexample). -/
theorem claim_C2_scan_failure (path : FsPath) (cache : Cache) (fs : Fs) (e : String)
    (herr : (symlink_realpath_with path cache fs).res = .error e) :
    ∃ par, parent? path = some par
      ∧ cacheHasKey cache par = false
      ∧ cacheHasKey (symlink_realpath_with path cache fs).cache par = false
      ∧ ∀ k, cacheHasKey cache k = true →
          cacheHasKey (symlink_realpath_with path cache fs).cache k = true := by
  by_cases h1 : lowerPath path = path
  · rw [resolve_lower cache fs h1] at herr; simp at herr
  · cases h2 : parent? path with
    | none => rw [resolve_noparent cache fs h1 h2] at herr; simp at herr
    | some par =>
      by_cases h3 : cacheHasKey cache par = true
      · rw [resolve_cached fs h1 h2 h3] at herr; simp at herr
      · have h3f : cacheHasKey cache par = false := by simpa using h3
        refine ⟨par, rfl, h3f, ?_, fun k hk => resolve_cache_mono path cache fs k hk⟩
        cases h4 : fs par with
        | error e2 =>
          rw [resolve_openfail h1 h2 h3f h4]
          exact h3f
        | ok entries =>
          rcases h5 : scanEntries par (pathHasUpper par) entries cache with ⟨r, c2⟩
          cases r with
          | error e2 =>
            rw [resolve_scanfail h1 h2 h3f h4 h5]
            simp only []
            by_contra hkey
            have hkey2 : cacheHasKey c2 par = true := by
              cases hc : cacheHasKey c2 par
              · exact absurd hc hkey
              · rfl
            have := scanEntries_keys par (pathHasUpper par) entries cache par (by rw [h5]; exact hkey2)
            rcases this with h6 | ⟨name, h6⟩
            · rw [h6] at h3f; cases h3f
            · have := congrArg List.length h6
              simp [lowerPath] at this
          | ok u =>
            cases u
            rw [resolve_scanok h1 h2 h3f h4 h5] at herr
            simp at herr

/-- Witness for C2 (amended) at the concrete failing listing `fsBoom`:
    the parent `d` was unscanned, stays sentinel-free, and the (empty)
    input cache's keys all survive. -/
theorem claim_C2_scan_failure_witness :
    ∃ par, parent? [compD, Comp.normal [88]] = some par
      ∧ cacheHasKey ([] : Cache) par = false
      ∧ cacheHasKey (symlink_realpath_with [compD, Comp.normal [88]] [] fsBoom).cache par = false
      ∧ ∀ k, cacheHasKey ([] : Cache) k = true →
          cacheHasKey (symlink_realpath_with [compD, Comp.normal [88]] [] fsBoom).cache k = true :=
  claim_C2_scan_failure [compD, .normal [88]] [] fsBoom "boom" (by decide)

/-- C4: (1) when the parent already has a cache entry, a call performs no
    directory listing; (2) a call that listed a directory and succeeded
    leaves the sentinel entry for the parent in the cache — even when no
    child entry matched the uppercase filter; (3) cache keys are never
    removed by a call. Together: each parent is listed at most once per
    cache lifetime across any sequence of calls sharing the cache. -/
theorem claim_C4_scan_once (path : FsPath) (cache : Cache) (fs : Fs) (par : FsPath) :
    (parent? path = some par → cacheHasKey cache par = true →
      (symlink_realpath_with path cache fs).listed = 0)
    ∧ (parent? path = some par →
      (symlink_realpath_with path cache fs).listed = 1 →
      (∃ p2, (symlink_realpath_with path cache fs).res = Except.ok p2) →
      cacheHasKey (symlink_realpath_with path cache fs).cache par = true)
    ∧ (∀ k, cacheHasKey cache k = true →
      cacheHasKey (symlink_realpath_with path cache fs).cache k = true) :=
  ⟨fun hp hkey => resolve_listed_zero_of_cached fs hp hkey,
   fun hp hlist hok => resolve_sentinel_of_scan hp hlist hok,
   fun k hk => resolve_cache_mono path cache fs k hk⟩

/-- Witness for C4: the first call on `Dir/foo` lists `Dir` and commits
    the sentinel; the follow-up sibling call on `Dir/baz.txt` against the
    resulting cache performs zero listings. -/
theorem claim_C4_scan_once_witness :
    cacheHasKey (symlink_realpath_with [compDir, Comp.normal strfoo] [] fsDir).cache [compDir] = true
    ∧ (symlink_realpath_with [compDir, Comp.normal strbaztxt] cacheDirScanned fsDir).listed = 0 :=
  ⟨(claim_C4_scan_once [compDir, .normal strfoo] [] fsDir [compDir]).2.1
      (by decide) (by decide) ⟨[compDir, .normal strFoo], by decide⟩,
   (claim_C4_scan_once [compDir, .normal strbaztxt] cacheDirScanned fsDir [compDir]).1
      (by decide) (by decide)⟩

/-- C3 (amended): for a path that is NOT already fully lowercase and whose
    parent has a cache entry, the call returns the cached true-cased path
    when the lowercased input is cached with a non-empty value and the
    input unchanged otherwise (`finishLookup`), with no listing; the
    spec's concrete examples hold for the uppercase-cased parent `Dir`:
    `Dir/foo` resolves to `Dir/Foo` and `Dir/baz.txt` to `Dir/BAZ.TXT`
    with no second listing. -/
theorem claim_C3_amended :
    (∀ (path : FsPath) (cache : Cache) (fs : Fs) (par : FsPath),
      lowerPath path ≠ path → parent? path = some par →
      cacheHasKey cache par = true →
      symlink_realpath_with path cache fs
        = ⟨.ok (finishLookup cache (lowerPath path) path), cache, 0⟩)
    ∧ (symlink_realpath_with [compDir, .normal strfoo] [] fsDir).res
        = .ok [compDir, .normal strFoo]
    ∧ (symlink_realpath_with [compDir, .normal strbaztxt] cacheDirScanned fsDir).res
        = .ok [compDir, .normal strBAZTXT]
    ∧ (symlink_realpath_with [compDir, .normal strbaztxt] cacheDirScanned fsDir).listed = 0 :=
  ⟨fun _ _ fs _ h1 h2 h3 => resolve_cached fs h1 h2 h3, by decide, by decide, by decide⟩

/-- Witness for C3 (amended): the sibling call on `Dir/baz.txt` against
    the scanned cache equals the `finishLookup` result with the cache kept
    and zero listings. -/
theorem claim_C3_amended_witness :
    symlink_realpath_with [compDir, .normal strbaztxt] cacheDirScanned fsDir
      = ⟨.ok (finishLookup cacheDirScanned (lowerPath [compDir, .normal strbaztxt])
          [compDir, .normal strbaztxt]), cacheDirScanned, 0⟩ :=
  claim_C3_amended.1 [compDir, .normal strbaztxt] cacheDirScanned fsDir [compDir]
    (by decide) (by decide) (by decide)

/-- C8 (amended): resolving an already-correctly-cased child of `par`
    returns it unchanged, provided the parent's listing succeeds, contains
    the child's name, and no two listed names collide after ASCII
    lowercasing (always true on a case-insensitive filesystem; the
    counterexample shows the colliding case misbehaves). -/
theorem claim_C8_idempotent (par : FsPath) (name : OsStr) (ns : List OsStr) (fs : Fs)
    (hfs : fs par = .ok (ns.map Except.ok))
    (hmem : name ∈ ns)
    (hcoll : ∀ n1 ∈ ns, ∀ n2 ∈ ns, lowerStr n1 = lowerStr n2 → n1 = n2) :
    (symlink_realpath_with (par ++ [Comp.normal name]) [] fs).res
      = .ok (par ++ [Comp.normal name]) := by
  by_cases h1 : lowerPath (par ++ [Comp.normal name]) = par ++ [Comp.normal name]
  · rw [resolve_lower [] fs h1]
  · have h2 := parent?_concat_normal par name
    have h3 : cacheHasKey ([] : Cache) par = false := rfl
    obtain ⟨c2, h5⟩ := scanEntries_fst_ok par (pathHasUpper par) ns []
    rw [resolve_scanok h1 h2 h3 hfs h5]
    show Except.ok (finishLookup (cacheInsert c2 par [])
        (lowerPath (par ++ [Comp.normal name])) (par ++ [Comp.normal name]))
      = Except.ok (par ++ [Comp.normal name])
    have hup : (pathHasUpper par || strHasUpper name) = true := by
      cases hb2 : (pathHasUpper par || strHasUpper name)
      · exfalso
        obtain ⟨x, y⟩ := Bool.or_eq_false_iff.mp hb2
        apply h1
        have hpar := (lowerPath_fix par).mpr x
        have hname := (lowerStr_fix name).mpr y
        calc lowerPath (par ++ [Comp.normal name])
            = lowerPath par ++ [Comp.normal (lowerStr name)] := by
              simp [lowerPath, lowerComp]
          _ = par ++ [Comp.normal name] := by rw [hpar, hname]
      · rfl
    have hfound : cacheLookup c2 (lowerPath (par ++ [Comp.normal name]))
        = some (par ++ [Comp.normal name]) := by
      have h6 := scan_lookup_found par (pathHasUpper par) name ns [] hmem hcoll hup
      rw [h5] at h6
      exact h6
    have hkeyne : par ≠ lowerPath (par ++ [Comp.normal name]) := by
      intro h
      have := congrArg List.length h
      simp [lowerPath] at this
    simp only [finishLookup, cacheInsert, cacheLookup, if_neg hkeyne, hfound]
    simp

/-- Witness for C8 (amended): the correctly-cased `d/Foo` in the
    `Foo`/`bar`/`BAZ.TXT` directory resolves to itself. -/
theorem claim_C8_idempotent_witness :
    (symlink_realpath_with ([compD] ++ [Comp.normal strFoo]) [] fsD).res
      = .ok ([compD] ++ [Comp.normal strFoo]) :=
  claim_C8_idempotent [compD] strFoo [strFoo, strbar, strBAZTXT] fsD (by decide)
    (by decide) (by decide)

/-! ### `calculate_size`

The filesystem subtree under one path is modelled as a finite node tree.
`symlink_metadata` / `DirEntry::metadata` are both lstat-like: a symlink
reports `is_dir = false` and its own length, so it is a leaf here; `bad`
is a node whose metadata read fails; `dirFail` is a directory whose
`read_dir` call fails; a `none` in a `dir`'s entry list is a `next_entry`
error, which stops the iteration over that directory (the `while let
Ok(Some(entry))` pattern), discarding the remaining entries. -/

inductive FsNode where
  | file (len : Nat)
  | symlink (len : Nat)
  | bad
  | dirFail
  | dir (entries : List (Option FsNode))

/-- Does the node's lstat-like metadata report a directory? -/
def isDirNode : FsNode → Bool
  | .dir _ => true
  | .dirFail => true
  | _ => false

/-- The inner `while let Ok(Some(entry)) = it.next_entry()` loop of
    `calculate_size`: sums the lengths of non-directory entries whose
    metadata reads fine, collects directory entries to push onto the work
    queue (in order), skips entries whose metadata read fails, and stops
    at the first `next_entry` error. -/
def drainEntries : List (Option FsNode) → Nat × List FsNode
  | [] => (0, [])
  | none :: _ => (0, [])
  | some n :: rest =>
    match n with
    | .bad => drainEntries rest
    | .file len => ((drainEntries rest).1 + len, (drainEntries rest).2)
    | .symlink len => ((drainEntries rest).1 + len, (drainEntries rest).2)
    | .dirFail => ((drainEntries rest).1, .dirFail :: (drainEntries rest).2)
    | .dir es => ((drainEntries rest).1, .dir es :: (drainEntries rest).2)

/- Structural weight of a node / entry list, the termination measure for
the work-queue loop (the derived `sizeOf` of this nested inductive has no
executable code, so we spell out our own). -/
mutual
def nodeWeight : FsNode → Nat
  | .file _ => 1
  | .symlink _ => 1
  | .bad => 1
  | .dirFail => 1
  | .dir es => 1 + entriesWeight es
def entriesWeight : List (Option FsNode) → Nat
  | [] => 1
  | none :: rest => 1 + entriesWeight rest
  | some n :: rest => 1 + nodeWeight n + entriesWeight rest
end

theorem nodeWeight_pos (n : FsNode) : 0 < nodeWeight n := by
  cases n <;> (simp only [nodeWeight]; omega)

/-- Combined tree weight of a work queue, used as the termination measure. -/
def stackSize (l : List FsNode) : Nat := (l.map nodeWeight).sum

theorem stackSize_cons (n : FsNode) (l : List FsNode) :
    stackSize (n :: l) = nodeWeight n + stackSize l := by
  simp [stackSize]

theorem stackSize_append (l1 l2 : List FsNode) :
    stackSize (l1 ++ l2) = stackSize l1 + stackSize l2 := by
  simp [stackSize]

theorem drainEntries_stackSize (l : List (Option FsNode)) :
    stackSize (drainEntries l).2 ≤ entriesWeight l := by
  induction l with
  | nil => simp [drainEntries, stackSize, entriesWeight]
  | cons x rest ih =>
    cases x with
    | none => simp [drainEntries, stackSize, entriesWeight]
    | some n =>
      cases n with
      | bad => simp only [drainEntries, entriesWeight]; omega
      | file len => simp only [drainEntries, entriesWeight]; omega
      | symlink len => simp only [drainEntries, entriesWeight]; omega
      | dirFail =>
        simp only [drainEntries, entriesWeight, stackSize_cons, nodeWeight]
        omega
      | dir es =>
        simp only [drainEntries, entriesWeight, stackSize_cons, nodeWeight]
        omega

/-- The outer `while let Some(path) = stack.pop_front()` loop of
    `calculate_size`: pop the front of the queue, skip it if its metadata
    read fails, add its length if it is not a directory, otherwise drain
    its listing (pushing sub-directories at the back, BFS order). -/
def calcLoop (stack : List FsNode) (total : Nat) : Nat :=
  match stack with
  | [] => total
  | n :: rest =>
    match n with
    | .bad => calcLoop rest total
    | .file len => calcLoop rest (total + len)
    | .symlink len => calcLoop rest (total + len)
    | .dirFail => calcLoop rest total
    | .dir es => calcLoop (rest ++ (drainEntries es).2) (total + (drainEntries es).1)
termination_by stackSize stack
decreasing_by
  · simp only [stackSize_cons, nodeWeight]; omega
  · simp only [stackSize_cons, nodeWeight]; omega
  · simp only [stackSize_cons, nodeWeight]; omega
  · simp only [stackSize_cons, nodeWeight]; omega
  · have h := drainEntries_stackSize es
    simp only [stackSize_cons, stackSize_append, nodeWeight]
    omega

/-- `calculate_size` from `fns.rs`: run the work-queue loop from the root
    with a zero total. It is total — the Rust loop terminates on every
    finite node tree. -/
def calculate_size (root : FsNode) : Nat := calcLoop [root] 0

/- The intended value: best-effort sum of all reachable file and symlink
lengths, with unreadable metadata, unlistable directories, and entries
after a listing error contributing zero. -/
mutual
def sizeSpec : FsNode → Nat
  | .file len => len
  | .symlink len => len
  | .bad => 0
  | .dirFail => 0
  | .dir es => sizeSpecEntries es
def sizeSpecEntries : List (Option FsNode) → Nat
  | [] => 0
  | none :: _ => 0
  | some n :: rest => sizeSpec n + sizeSpecEntries rest
end

/-- Sum of `sizeSpec` over a work queue. -/
def specSum (l : List FsNode) : Nat := (l.map sizeSpec).sum

theorem specSum_cons (n : FsNode) (l : List FsNode) :
    specSum (n :: l) = sizeSpec n + specSum l := by
  simp [specSum]

theorem specSum_append (l1 l2 : List FsNode) :
    specSum (l1 ++ l2) = specSum l1 + specSum l2 := by
  simp [specSum]

theorem drainEntries_spec (l : List (Option FsNode)) :
    (drainEntries l).1 + specSum (drainEntries l).2 = sizeSpecEntries l := by
  induction l with
  | nil => simp [drainEntries, specSum, sizeSpecEntries]
  | cons x rest ih =>
    cases x with
    | none => simp [drainEntries, specSum, sizeSpecEntries]
    | some n =>
      cases n with
      | bad => simpa [drainEntries, sizeSpecEntries, sizeSpec] using ih
      | file len => simp [drainEntries, sizeSpecEntries, sizeSpec]; omega
      | symlink len => simp [drainEntries, sizeSpecEntries, sizeSpec]; omega
      | dirFail => simp [drainEntries, sizeSpecEntries, sizeSpec, specSum_cons]; omega
      | dir es => simp [drainEntries, sizeSpecEntries, sizeSpec, specSum_cons]; omega

theorem calcLoop_spec (stack : List FsNode) (total : Nat) :
    calcLoop stack total = total + specSum stack := by
  induction stack, total using calcLoop.induct with
  | case1 total => simp [calcLoop, specSum]
  | case2 rest total ih => simpa [calcLoop, specSum_cons, sizeSpec] using ih
  | case3 rest total len ih =>
    simp [calcLoop, specSum_cons, sizeSpec, ih]; omega
  | case4 rest total len ih =>
    simp [calcLoop, specSum_cons, sizeSpec, ih]; omega
  | case5 rest total ih => simpa [calcLoop, specSum_cons, sizeSpec] using ih
  | case6 rest total es ih =>
    have hd := drainEntries_spec es
    simp [calcLoop, specSum_cons, sizeSpec, specSum_append, ih]
    omega

/-- Fuel-indexed version of the work-queue loop: `none` means the fuel ran
    out before the queue emptied. -/
def calcLoopF : Nat → List FsNode → Nat → Option Nat
  | 0, _, _ => none
  | _ + 1, [], total => some total
  | fuel + 1, n :: rest, total =>
    match n with
    | .bad => calcLoopF fuel rest total
    | .file len => calcLoopF fuel rest (total + len)
    | .symlink len => calcLoopF fuel rest (total + len)
    | .dirFail => calcLoopF fuel rest total
    | .dir es => calcLoopF fuel (rest ++ (drainEntries es).2) (total + (drainEntries es).1)

theorem calcLoopF_adequate : ∀ (fuel : Nat) (stack : List FsNode) (total : Nat),
    stackSize stack < fuel → calcLoopF fuel stack total = some (calcLoop stack total) := by
  intro fuel
  induction fuel with
  | zero => intro stack total h; exact absurd h (Nat.not_lt_zero _)
  | succ fuel ih =>
    intro stack total h
    cases stack with
    | nil => simp [calcLoopF, calcLoop]
    | cons n rest =>
      rw [stackSize_cons] at h
      have hpos := nodeWeight_pos n
      cases n with
      | bad =>
        rw [show calcLoopF (fuel + 1) (FsNode.bad :: rest) total
            = calcLoopF fuel rest total from rfl]
        rw [ih rest total (by omega)]
        simp [calcLoop]
      | file len =>
        rw [show calcLoopF (fuel + 1) (FsNode.file len :: rest) total
            = calcLoopF fuel rest (total + len) from rfl]
        rw [ih rest (total + len) (by omega)]
        simp [calcLoop]
      | symlink len =>
        rw [show calcLoopF (fuel + 1) (FsNode.symlink len :: rest) total
            = calcLoopF fuel rest (total + len) from rfl]
        rw [ih rest (total + len) (by omega)]
        simp [calcLoop]
      | dirFail =>
        rw [show calcLoopF (fuel + 1) (FsNode.dirFail :: rest) total
            = calcLoopF fuel rest total from rfl]
        rw [ih rest total (by omega)]
        simp [calcLoop]
      | dir es =>
        rw [show calcLoopF (fuel + 1) (FsNode.dir es :: rest) total
            = calcLoopF fuel (rest ++ (drainEntries es).2)
                (total + (drainEntries es).1) from rfl]
        have hd := drainEntries_stackSize es
        have hsz : nodeWeight (FsNode.dir es) = 1 + entriesWeight es := rfl
        rw [ih (rest ++ (drainEntries es).2) (total + (drainEntries es).1)
          (by rw [stackSize_append]; omega)]
        simp [calcLoop]

theorem drainEntries_pushed_dirs (l : List (Option FsNode)) :
    ∀ n ∈ (drainEntries l).2, isDirNode n = true := by
  induction l with
  | nil => simp [drainEntries]
  | cons x rest ih =>
    cases x with
    | none => simp [drainEntries]
    | some m =>
      cases m with
      | bad => simpa [drainEntries] using ih
      | file len => simpa [drainEntries] using ih
      | symlink len => simpa [drainEntries] using ih
      | dirFail =>
        intro n hn
        simp only [drainEntries] at hn
        rcases List.mem_cons.mp hn with h | h
        · rw [h]; rfl
        · exact ih n h
      | dir es =>
        intro n hn
        simp only [drainEntries] at hn
        rcases List.mem_cons.mp hn with h | h
        · rw [h]; rfl
        · exact ih n h

/-- C7: `calculate_size` is total and equals the best-effort sum
    `sizeSpec` of every readable file length; an empty directory yields 0;
    the 10/20/30 tree (files at nesting depths 1, 3 and 4) yields 60; an
    entry whose metadata read fails, or a subdirectory whose listing
    fails, contributes exactly zero wherever it sits in a listing. -/
theorem claim_C7_calculate_size :
    (∀ root, calculate_size root = sizeSpec root)
    ∧ calculate_size (FsNode.dir []) = 0
    ∧ calculate_size (FsNode.dir [some (FsNode.file 10),
        some (FsNode.dir [some (FsNode.dir [some (FsNode.file 20),
          some (FsNode.dir [some (FsNode.file 30)])])])]) = 60
    ∧ (∀ l1 l2, sizeSpecEntries (l1 ++ some FsNode.bad :: l2)
        = sizeSpecEntries (l1 ++ l2))
    ∧ (∀ l1 l2, sizeSpecEntries (l1 ++ some FsNode.dirFail :: l2)
        = sizeSpecEntries (l1 ++ l2)) := by
  have hspec : ∀ root, calculate_size root = sizeSpec root := by
    intro root
    rw [calculate_size, calcLoop_spec]
    simp [specSum]
  have hskip : ∀ (n : FsNode), sizeSpec n = 0 →
      ∀ (l1 l2 : List (Option FsNode)),
        sizeSpecEntries (l1 ++ some n :: l2) = sizeSpecEntries (l1 ++ l2) := by
    intro n hn l1
    induction l1 with
    | nil => intro l2; simp [sizeSpecEntries, hn]
    | cons x rest ih =>
      intro l2
      cases x with
      | none => simp [sizeSpecEntries]
      | some m => simp [sizeSpecEntries, ih]
  refine ⟨hspec, ?_, ?_, hskip FsNode.bad rfl, hskip FsNode.dirFail rfl⟩
  · rw [hspec]; rfl
  · rw [hspec]; rfl

/-- C10: the work-queue loop terminates — with fuel exceeding the tree
    weight, the fueled loop finishes and computes `calculate_size`; and
    the queue only ever receives entries whose lstat-like metadata reports
    a directory, so a symlink (even one pointing at a directory) is never
    enqueued and symlink cycles cannot drive the traversal. -/
theorem claim_C10_termination :
    (∀ (fuel : Nat) (stack : List FsNode) (total : Nat), stackSize stack < fuel →
        calcLoopF fuel stack total = some (calcLoop stack total))
    ∧ (∀ root, ∃ fuel total, calcLoopF fuel [root] 0 = some total
        ∧ total = calculate_size root)
    ∧ (∀ l n, n ∈ (drainEntries l).2 → isDirNode n = true)
    ∧ (∀ l len, FsNode.symlink len ∉ (drainEntries l).2) := by
  refine ⟨calcLoopF_adequate, ?_, fun l n hn => drainEntries_pushed_dirs l n hn, ?_⟩
  · intro root
    refine ⟨stackSize [root] + 1, calcLoop [root] 0,
      calcLoopF_adequate _ _ _ (Nat.lt_succ_self _), rfl⟩
  · intro l len hmem
    have := drainEntries_pushed_dirs l (FsNode.symlink len) hmem
    simp [isDirNode] at this

/-- Witness for C10: the fueled loop on a one-file queue finishes within
    fuel 5, and the directory node in a one-entry listing is enqueued as a
    genuine directory. -/
theorem claim_C10_termination_witness :
    calcLoopF 5 [FsNode.file 3] 0 = some (calcLoop [FsNode.file 3] 0)
    ∧ isDirNode (FsNode.dir []) = true :=
  ⟨claim_C10_termination.1 5 [FsNode.file 3] 0 (by simp [stackSize, nodeWeight]),
   claim_C10_termination.2.2.1 [some (FsNode.dir [])] (FsNode.dir [])
     (by simp [drainEntries])⟩

/-! ### `copy_with_progress`

The poller task loops over a `select!` between (a) the one-shot
completion signal, (b) the consumer closing the channel, and (c) a
3-second tick. One execution of the loop is driven by a schedule of these
events; a `tick` carries the destination length that
`fs::symlink_metadata(&to)` samples in that iteration (`0` when the
metadata read fails, per `unwrap_or(0)`). The capacity-1 channel delivers
messages in order, so the emitted list is the stream the consumer sees. -/

/-- A progress message: `Ok(delta)` or `Err(cause)`. -/
abbrev Msg := Except String Nat

/-- One `select!` outcome inside the poller loop. -/
inductive PollEv where
  | tick (sample : Nat)
  | fire
  | closed

/-- The poller loop of `copy_with_progress`: on `closed` it exits
    silently; on `fire` it emits the final catch-up delta (when the
    definitive length exceeds the last report), then the `Delta(0)`
    sentinel on success, or the single `Error` on failure, and exits; on a
    `tick` it emits a delta only when the sampled length grew. -/
def poller (outcome : Except String Nat) : List PollEv → Nat → List Msg
  | [], _ => []
  | .closed :: _, _ => []
  | .fire :: _, last =>
    (match outcome with
     | .ok len => (if last < len then [Except.ok (len - last)] else []) ++ [Except.ok 0]
     | .error e => [Except.error e])
  | .tick s :: rest, last =>
    if last < s then Except.ok (s - last) :: poller outcome rest s
    else poller outcome rest last

/-- A complete run of `copy_with_progress`'s poller: some ticks, then the
    completion signal fires with the copy's outcome, starting from a zero
    last-reported length. -/
def progressStream (outcome : Except String Nat) (samples : List Nat) : List Msg :=
  poller outcome (samples.map PollEv.tick ++ [PollEv.fire]) 0

/-- The copier task's ending (`fns.rs` lines 121-132): whichever way
    `fs::copy` ends, it sends exactly one value on the one-shot channel —
    so the poller's `res.unwrap()` never observes a dropped sender. -/
def copierSignal (copyRes : Except String Nat) : Option (Except String Nat) :=
  match copyRes with
  | .ok len => some (Except.ok len)
  | .error e => some (Except.error e)

theorem poller_ok_stream (N : Nat) : ∀ (samples : List Nat) (last : Nat),
    (∀ s ∈ samples, s ≤ N) → last ≤ N →
    ∃ ds : List Nat,
      poller (.ok N) (samples.map PollEv.tick ++ [PollEv.fire]) last
        = ds.map Except.ok ++ [Except.ok 0]
      ∧ (∀ d ∈ ds, 0 < d) ∧ ds.sum = N - last := by
  intro samples
  induction samples with
  | nil =>
    intro last _ hlast
    by_cases h : last < N
    · exact ⟨[N - last], by simp [poller, h], by intro d hd; simp at hd; omega, by simp⟩
    · refine ⟨[], by simp [poller, h], by simp, by simp; omega⟩
  | cons s rest ih =>
    intro last hs hlast
    by_cases h : last < s
    · obtain ⟨ds, h1, h2, h3⟩ := ih s (fun x hx => hs x (by simp [hx])) (hs s (by simp))
      refine ⟨(s - last) :: ds, ?_, ?_, ?_⟩
      · simp [poller, h, h1]
      · intro d hd
        rcases List.mem_cons.mp hd with h4 | h4
        · rw [h4]; omega
        · exact h2 d h4
      · have hsN : s ≤ N := hs s (by simp)
        simp [h3]
        omega
    · obtain ⟨ds, h1, h2, h3⟩ := ih last (fun x hx => hs x (by simp [hx])) hlast
      exact ⟨ds, by simp [poller, h, h1], h2, h3⟩

theorem poller_err_stream (e : String) : ∀ (samples : List Nat) (last : Nat),
    ∃ ds : List Nat,
      poller (.error e) (samples.map PollEv.tick ++ [PollEv.fire]) last
        = ds.map Except.ok ++ [Except.error e]
      ∧ ∀ d ∈ ds, 0 < d := by
  intro samples
  induction samples with
  | nil => intro last; exact ⟨[], by simp [poller], by simp⟩
  | cons s rest ih =>
    intro last
    by_cases h : last < s
    · obtain ⟨ds, h1, h2⟩ := ih s
      refine ⟨(s - last) :: ds, by simp [poller, h, h1], ?_⟩
      intro d hd
      rcases List.mem_cons.mp hd with h4 | h4
      · rw [h4]; omega
      · exact h2 d h4
    · obtain ⟨ds, h1, h2⟩ := ih last
      exact ⟨ds, by simp [poller, h, h1], h2⟩

/-- C1: for a successful copy of N bytes observed through destination
    samples never exceeding N, the delivered stream is a list of strictly
    positive deltas summing to N followed by the single terminal
    `Delta(0)` — zero is never emitted earlier; for a failed copy the
    stream is some positive deltas ending in exactly one `Error`, with
    nothing after it. -/
theorem claim_C1_progress_stream :
    (∀ (N : Nat) (samples : List Nat), (∀ s ∈ samples, s ≤ N) →
      ∃ ds : List Nat,
        progressStream (Except.ok N) samples = ds.map Except.ok ++ [Except.ok 0]
        ∧ (∀ d ∈ ds, 0 < d) ∧ ds.sum = N)
    ∧ (∀ (e : String) (samples : List Nat),
      ∃ ds : List Nat,
        progressStream (Except.error e) samples = ds.map Except.ok ++ [Except.error e]
        ∧ (∀ d ∈ ds, 0 < d)) := by
  constructor
  · intro N samples hs
    obtain ⟨ds, h1, h2, h3⟩ := poller_ok_stream N samples 0 hs (Nat.zero_le N)
    exact ⟨ds, h1, h2, by simpa using h3⟩
  · intro e samples
    exact poller_err_stream e samples 0

/-- Witness for C1: a 10-byte copy observed through samples 4 and 7, and a
    failing copy observed through the same samples. -/
theorem claim_C1_progress_stream_witness :
    (∃ ds : List Nat,
      progressStream (Except.ok 10) [4, 7] = ds.map Except.ok ++ [Except.ok 0]
      ∧ (∀ d ∈ ds, 0 < d) ∧ ds.sum = 10)
    ∧ (∃ ds : List Nat,
      progressStream (Except.error "broken pipe") [4, 7]
        = ds.map Except.ok ++ [Except.error "broken pipe"]
      ∧ (∀ d ∈ ds, 0 < d)) :=
  ⟨claim_C1_progress_stream.1 10 [4, 7] (by decide),
   claim_C1_progress_stream.2 "broken pipe" [4, 7]⟩

/-- C9: the three `unwrap` sites are unreachable as panics: the copier
    always sends exactly one completion value on the one-shot channel
    (`res.unwrap()` in the poller); a directory entry's path, parent plus
    file name, always has a file name (`p.file_name().unwrap()` in
    `symlink_realpath_with`); and a non-empty file list yields a non-empty
    parent iterator (`it.next().unwrap()` in `max_common_root`, guarded by
    the early `is_empty` return). -/
theorem claim_C9_no_panics :
    (∀ r : Except String Nat, (copierSignal r).isSome = true)
    ∧ (∀ (par : FsPath) (name : OsStr), fileName? (par ++ [Comp.normal name]) = some name)
    ∧ (∀ files : List FsPath, files ≠ [] → files.map parentOrEmpty ≠ []) := by
  refine ⟨?_, ?_, ?_⟩
  · intro r; cases r <;> rfl
  · intro par name
    simp [fileName?, List.getLast?_concat]
  · intro files h
    simpa using h

/-- Witness for C9 at concrete inputs: a successful 3-byte copy outcome, a
    one-component child of `d`, and the singleton file list `[d]`. -/
theorem claim_C9_no_panics_witness :
    (copierSignal (Except.ok 3)).isSome = true
    ∧ fileName? ([compD] ++ [Comp.normal [97]]) = some [97]
    ∧ [[compD]].map parentOrEmpty ≠ [] :=
  ⟨claim_C9_no_panics.1 (Except.ok 3),
   claim_C9_no_panics.2.1 [compD] [97],
   claim_C9_no_panics.2.2 [[compD]] (by decide)⟩

end Yazi
